import Mathlib

/-!
Verification of the indexing & metadata-consolidation engine of `nice_bids`
(`nice_bids/dataset.py`, class `NICEBIDS`).

The Python code is shallowly embedded: pure fragments become Lean functions,
the catalog object becomes an explicit state record, fallible operations
return `Except String`.  The external collaborators that live outside
`src/` (the path-grammar module `nice_bids.paths`, pandas' datetime parser,
the filesystem) are modelled as explicit parameters, each marked in its
doc comment.
-/

/-! ## Python string helpers -/

/-- Bool test that `p` is an initial segment of `l` (used to model Python's
substring operators on `str`). -/
def leadsWith : List Char → List Char → Bool
  | [], _ => true
  | _ :: _, [] => false
  | a :: as, b :: bs => a == b && leadsWith as bs

/-- Bool test that `needle` occurs contiguously inside `hay`
(Python `needle in hay` on strings). -/
def containsSub (needle : List Char) : List Char → Bool
  | [] => leadsWith needle []
  | b :: bs => leadsWith needle (b :: bs) || containsSub needle bs

/-- Bool test that `t` is a final segment of `l`
(Python `hay.endswith(t)`). -/
def trailsWith (t : List Char) (l : List Char) : Bool :=
  leadsWith t.reverse l.reverse

/-- Python `needle in hay` for strings. -/
def pyIn (needle hay : String) : Bool :=
  containsSub needle.data hay.data

/-- Python `s.endswith(t)`. -/
def pyEndsWith (t s : String) : Bool :=
  trailsWith t.data s.data

/-- Python `s.rjust(w, '0')`: left-pad `s` with zeros to width `w`;
strings already at least `w` long are returned unchanged. -/
def rjustZ (s : String) (w : Nat) : String :=
  if w ≤ s.length then s
  else String.mk (List.replicate (w - s.length) '0') ++ s

/-- `nice_bids.dataset.int2str`: `str(x).rjust(rjust, '0')`.  Lean's
`toString` on `Int` agrees with Python's decimal rendering. -/
def int2str (x : Int) (rjust : Nat) : String :=
  rjustZ (toString x) rjust

/-! ## Regex engine

`NICEBIDS.__init__` builds a regular-expression string and the pipeline
filters paths with `re.match`.  We embed the fragment of Python `re`
actually used — literal characters, `.` (any character), `X+`
(one-or-more), alternation groups `(a|b)` and the trailing `$` anchor —
as a regex AST with a Brzozowski-derivative matcher.  Because the
pattern ends with `$`, `re.match` accepts exactly the full-string
matches (Python's `$` would also accept a match ending just before a
final newline; recording paths contain no newline). -/

/-- A single-character regex symbol: a literal or `.` (any char). -/
inductive CSym where
  | lit (c : Char)
  | anychar
deriving DecidableEq, Repr

def CSym.matchesChar : CSym → Char → Bool
  | .lit c, a => a == c
  | .anychar, _ => true

/-- Regex AST: empty language, empty string, one symbol, alternation,
concatenation, Kleene star. -/
inductive RE where
  | emp
  | eps
  | sym (s : CSym)
  | alt (r₁ r₂ : RE)
  | cat (r₁ r₂ : RE)
  | star (r : RE)
deriving DecidableEq, Repr

/-- Does the regex accept the empty string? -/
def RE.matchEps : RE → Bool
  | .emp => false
  | .eps => true
  | .sym _ => false
  | .alt r₁ r₂ => r₁.matchEps || r₂.matchEps
  | .cat r₁ r₂ => r₁.matchEps && r₂.matchEps
  | .star _ => true

/-- Brzozowski derivative of a regex by one character. -/
def RE.deriv : RE → Char → RE
  | .emp, _ => .emp
  | .eps, _ => .emp
  | .sym s, a => if s.matchesChar a then .eps else .emp
  | .alt r₁ r₂, a => .alt (r₁.deriv a) (r₂.deriv a)
  | .cat r₁ r₂, a =>
      if r₁.matchEps then .alt (.cat (r₁.deriv a) r₂) (r₂.deriv a)
      else .cat (r₁.deriv a) r₂
  | .star r, a => .cat (r.deriv a) (.star r)

/-- Executable matcher by repeated derivation. -/
def RE.rmatch : RE → List Char → Bool
  | r, [] => r.matchEps
  | r, a :: as => (r.deriv a).rmatch as

theorem emp_rmatch (x : List Char) : RE.emp.rmatch x = false := by
  induction x with
  | nil => rfl
  | cons a as ih => simpa [RE.rmatch, RE.deriv] using ih

theorem eps_rmatch_iff (x : List Char) : RE.eps.rmatch x = true ↔ x = [] := by
  cases x with
  | nil => simp [RE.rmatch, RE.matchEps]
  | cons a as => simp [RE.rmatch, RE.deriv, emp_rmatch]

theorem sym_rmatch_iff (s : CSym) (x : List Char) :
    (RE.sym s).rmatch x = true ↔ ∃ a, x = [a] ∧ s.matchesChar a = true := by
  cases x with
  | nil => simp [RE.rmatch, RE.matchEps]
  | cons a as =>
    rw [RE.rmatch, RE.deriv]
    by_cases h : s.matchesChar a = true
    · rw [if_pos h, eps_rmatch_iff]
      constructor
      · rintro rfl; exact ⟨a, rfl, h⟩
      · rintro ⟨b, hb, _⟩
        exact (List.cons_eq_cons.mp hb).2
    · rw [if_neg h, emp_rmatch]
      constructor
      · intro hf; exact absurd hf (by simp)
      · rintro ⟨b, hb, hmb⟩
        rcases List.cons_eq_cons.mp hb with ⟨rfl, rfl⟩
        exact absurd hmb h

theorem alt_rmatch_iff (r₁ r₂ : RE) (x : List Char) :
    (RE.alt r₁ r₂).rmatch x = true ↔ r₁.rmatch x = true ∨ r₂.rmatch x = true := by
  induction x generalizing r₁ r₂ with
  | nil => simp [RE.rmatch, RE.matchEps]
  | cons a as ih =>
    rw [RE.rmatch, RE.deriv]
    exact ih _ _

theorem cat_rmatch_iff (r₁ r₂ : RE) (x : List Char) :
    (RE.cat r₁ r₂).rmatch x = true ↔
      ∃ t u, x = t ++ u ∧ r₁.rmatch t = true ∧ r₂.rmatch u = true := by
  induction x generalizing r₁ r₂ with
  | nil =>
    simp only [RE.rmatch, RE.matchEps, Bool.and_eq_true]
    constructor
    · rintro ⟨h₁, h₂⟩
      exact ⟨[], [], rfl, h₁, h₂⟩
    · rintro ⟨t, u, htu, h₁, h₂⟩
      rcases List.append_eq_nil.mp htu.symm with ⟨rfl, rfl⟩
      exact ⟨h₁, h₂⟩
  | cons a as ih =>
    rw [RE.rmatch, RE.deriv]
    by_cases he : r₁.matchEps
    · rw [if_pos he, alt_rmatch_iff, ih]
      constructor
      · rintro (⟨t, u, htu, h₁, h₂⟩ | h)
        · exact ⟨a :: t, u, by rw [htu, List.cons_append], h₁, h₂⟩
        · exact ⟨[], a :: as, rfl, he, h⟩
      · rintro ⟨t, u, htu, h₁, h₂⟩
        cases t with
        | nil =>
          right
          rw [List.nil_append] at htu
          rw [← htu] at h₂
          rw [RE.rmatch] at h₂
          exact h₂
        | cons b t =>
          left
          rw [List.cons_append] at htu
          injection htu with hb ht
          subst hb
          exact ⟨t, u, ht, by rw [RE.rmatch] at h₁; exact h₁, h₂⟩
    · rw [if_neg he, ih]
      constructor
      · rintro ⟨t, u, htu, h₁, h₂⟩
        exact ⟨a :: t, u, by rw [htu, List.cons_append], h₁, h₂⟩
      · rintro ⟨t, u, htu, h₁, h₂⟩
        cases t with
        | nil =>
          rw [RE.rmatch] at h₁
          simp [h₁] at he
        | cons b t =>
          rw [List.cons_append] at htu
          injection htu with hb ht
          subst hb
          exact ⟨t, u, ht, by rw [RE.rmatch] at h₁; exact h₁, h₂⟩

/-! ## Compiling the subset pattern (`NICEBIDS.__init__`) -/

def reAny : RE := RE.sym CSym.anychar

/-- Push one character of a Python-`re` fragment onto a reversed atom
list: `.` is any-char, `+` wraps the previous atom into one-or-more,
every other character is a literal. -/
def pushAtom (acc : List RE) (c : Char) : List RE :=
  if c = '+' then
    match acc with
    | a :: rest => RE.cat a (RE.star a) :: rest
    | [] => [RE.sym (CSym.lit '+')]
  else if c = '.' then RE.sym CSym.anychar :: acc
  else RE.sym (CSym.lit c) :: acc

def catList : List RE → RE
  | [] => RE.eps
  | r :: rs => RE.cat r (catList rs)

/-- Compile one textual piece of the pattern.  The source interpolates
the user-supplied alternative (or the `.+` wildcard) into the regex
string, so `.` and `+` keep their `re` meaning and other characters
are literals. -/
def compileAlt (s : String) : RE :=
  catList (s.data.foldl pushAtom []).reverse

def altList : List RE → RE
  | [] => RE.eps
  | [r] => r
  | r :: rs => RE.alt r (altList rs)

/-- A group `'(' + '|'.join(alts) + ')'`. -/
def reGroup (alts : List String) : RE :=
  altList (alts.map compileAlt)

/-- Python argument for the `sub`/`ses`/`task` filters:
`None`, a single string, or a list of strings. -/
inductive StrArg where
  | noneVal
  | strVal (s : String)
  | listVal (xs : List String)

/-- `self.subset['sub'|'ses'|'task']` after the `None` default and the
single-value-to-list normalization. -/
def subsetStr : StrArg → List String
  | .noneVal => [".+"]
  | .strVal s => [s]
  | .listVal xs => xs

/-- Python argument for the `acq` filter; its annotation is
`Union[int, List[int]]` but dynamic typing also admits a string or
`None`. -/
inductive AcqArg where
  | intVal (n : Int)
  | listVal (xs : List Int)
  | strVal (s : String)
  | noneVal

/-- `self.subset['acq']`: `int2str(acq)` for an `int`, elementwise
`int2str` for a list of ints, and the wildcard for anything else — a
string `acq` falls through both `isinstance` checks and becomes the
wildcard (then the single-value-to-list normalization wraps the
`int2str` result). -/
def subsetAcq (rjust : Nat) : AcqArg → List String
  | .intVal n => [int2str n rjust]
  | .listVal xs => xs.map (fun x => int2str x rjust)
  | .strVal _ => [".+"]
  | .noneVal => [".+"]

/-- `self.subset_regex_pattern` (the path-relative part), assembled at
the AST level exactly as the source's f-string joined by `/`:
`sub-(..)/ses-(..)/eeg/sub-(..)_ses-(..)_task-(..)_acq-(..)_(.+).(.+)$`.
The middle `.` of `_(.+).(.+)$` is an (unescaped) any-char; the `$`
anchor is accounted for in `pyReMatch`. -/
def subset_regex_pattern (subs sess tasks acqs : List String) : RE :=
  catList [compileAlt "sub-", reGroup subs,
           compileAlt "/ses-", reGroup sess,
           compileAlt "/eeg/", compileAlt "sub-", reGroup subs,
           compileAlt "_ses-", reGroup sess,
           compileAlt "_task-", reGroup tasks,
           compileAlt "_acq-", reGroup acqs,
           compileAlt "_", reGroup [".+"], reAny, reGroup [".+"]]

/-- `os.path.join(root, rest)` adds a slash unless the root is empty or
already ends with one. -/
def rootPiece (root : String) : String :=
  if root = "" then ""
  else if root.data.getLast? = some '/' then root
  else root ++ "/"

/-- The pattern used by `_read_files`:
`os.path.join(self.root, self.subset_regex_pattern)`. -/
def rawFilePattern (root : String) (subs sess tasks acqs : List String) : RE :=
  RE.cat (compileAlt (rootPiece root)) (subset_regex_pattern subs sess tasks acqs)

/-- The pattern used by `_read_derivatives`:
`os.path.join(root, 'derivatives', derivative_group, subset_regex_pattern)`. -/
def derivFilePattern (root : String) (derivAlts subs sess tasks acqs : List String) : RE :=
  catList [compileAlt (rootPiece root), compileAlt "derivatives/",
           reGroup derivAlts, compileAlt "/",
           subset_regex_pattern subs sess tasks acqs]

/-- `re.match(pattern, s)` for the patterns built above: they all end in
the `$` anchor, so a `re.match` hit must extend to the end of the
string and `re.match` coincides with full-string matching.  (Python's
`$` would also accept a match stopping just before a final newline;
recording paths contain none.) -/
def pyReMatch (r : RE) (s : String) : Bool :=
  r.rmatch s.data

/-! ### Facts about the compiled patterns -/

theorem star_any_rmatch (x : List Char) : (RE.star reAny).rmatch x = true := by
  induction x with
  | nil => rfl
  | cons a as ih =>
    rw [RE.rmatch]
    show (RE.cat RE.eps (RE.star reAny)).rmatch as = true
    exact (cat_rmatch_iff _ _ _).mpr ⟨[], as, rfl, rfl, ih⟩

/-- The compiled wildcard `.+` accepts every nonempty string. -/
theorem wildcard_rmatch (x : List Char) (hx : x ≠ []) :
    (compileAlt ".+").rmatch x = true := by
  show (RE.cat (RE.cat reAny (RE.star reAny)) RE.eps).rmatch x = true
  cases x with
  | nil => exact absurd rfl hx
  | cons a as =>
    refine (cat_rmatch_iff _ _ _).mpr ⟨a :: as, [], (List.append_nil _).symm, ?_, rfl⟩
    refine (cat_rmatch_iff _ _ _).mpr ⟨[a], as, rfl, ?_, star_any_rmatch as⟩
    exact (sym_rmatch_iff _ _).mpr ⟨a, rfl, rfl⟩

theorem matchEps_pushAtom (acc : List RE) (c : Char)
    (h : ∀ r ∈ acc, r.matchEps = false) :
    ∀ r ∈ pushAtom acc c, r.matchEps = false := by
  intro r hr
  unfold pushAtom at hr
  by_cases hc : c = '+'
  · rw [if_pos hc] at hr
    cases acc with
    | nil =>
      simp only [List.mem_singleton] at hr
      subst hr; rfl
    | cons a rest =>
      rcases List.mem_cons.mp hr with h1 | h2
      · subst h1
        show (a.matchEps && true) = false
        rw [h a (List.mem_cons_self _ _)]
        rfl
      · exact h r (List.mem_cons_of_mem _ h2)
  · rw [if_neg hc] at hr
    by_cases hd : c = '.'
    · rw [if_pos hd] at hr
      rcases List.mem_cons.mp hr with h1 | h2
      · subst h1; rfl
      · exact h r h2
    · rw [if_neg hd] at hr
      rcases List.mem_cons.mp hr with h1 | h2
      · subst h1; rfl
      · exact h r h2

theorem matchEps_foldl_pushAtom (cs : List Char) (acc : List RE)
    (h : ∀ r ∈ acc, r.matchEps = false) :
    ∀ r ∈ cs.foldl pushAtom acc, r.matchEps = false := by
  induction cs generalizing acc with
  | nil => exact h
  | cons c cs ih =>
    exact ih (pushAtom acc c) (matchEps_pushAtom acc c h)

theorem pushAtom_ne_nil (acc : List RE) (c : Char) : pushAtom acc c ≠ [] := by
  unfold pushAtom
  by_cases hc : c = '+'
  · rw [if_pos hc]
    cases acc <;> simp
  · rw [if_neg hc]
    by_cases hd : c = '.' <;> simp [hd]

theorem foldl_pushAtom_ne_nil (cs : List Char) (acc : List RE)
    (hne : cs ≠ [] ∨ acc ≠ []) : cs.foldl pushAtom acc ≠ [] := by
  induction cs generalizing acc with
  | nil =>
    rcases hne with h | h
    · exact absurd rfl h
    · exact h
  | cons c cs ih =>
    exact ih (pushAtom acc c) (Or.inr (pushAtom_ne_nil acc c))

theorem matchEps_catList_false (rs : List RE) (hne : rs ≠ [])
    (h : ∀ r ∈ rs, r.matchEps = false) : (catList rs).matchEps = false := by
  cases rs with
  | nil => exact absurd rfl hne
  | cons r rs =>
    show (r.matchEps && (catList rs).matchEps) = false
    rw [h r (List.mem_cons_self _ _)]
    rfl

/-- A compiled nonempty alternative never accepts the empty string. -/
theorem compileAlt_matchEps_false (t : String) (ht : t ≠ "") :
    (compileAlt t).matchEps = false := by
  have hdata : t.data ≠ [] := by
    intro hd
    apply ht
    cases t
    simp at hd
    simp [hd]
  apply matchEps_catList_false
  · simp only [ne_eq, List.reverse_eq_nil_iff]
    exact foldl_pushAtom_ne_nil t.data [] (Or.inl hdata)
  · intro r hr
    exact matchEps_foldl_pushAtom t.data [] (by intro r h; cases h)
      r (List.mem_reverse.mp hr)

/-- A group whose alternatives are all nonempty never accepts the empty
string. -/
theorem reGroup_matchEps_false (ts : List String) (hne : ts ≠ [])
    (h : ∀ t ∈ ts, t ≠ "") : (reGroup ts).matchEps = false := by
  induction ts with
  | nil => exact absurd rfl hne
  | cons t ts ih =>
    cases ts with
    | nil =>
      show (compileAlt t).matchEps = false
      exact compileAlt_matchEps_false t (h t (List.mem_cons_self _ _))
    | cons t' ts' =>
      show ((compileAlt t).matchEps || (reGroup (t' :: ts')).matchEps) = false
      rw [compileAlt_matchEps_false t (h t (List.mem_cons_self _ _)),
        ih (by simp) (fun x hx => h x (List.mem_cons_of_mem _ hx))]
      rfl

theorem reGroup_rmatch_ne_nil (ts : List String) (hne : ts ≠ [])
    (h : ∀ t ∈ ts, t ≠ "") (x : List Char)
    (hm : (reGroup ts).rmatch x = true) : x ≠ [] := by
  intro hx
  subst hx
  rw [RE.rmatch, reGroup_matchEps_false ts hne h] at hm
  exact absurd hm (by simp)

/-- Lifting slot-wise language inclusion through a concatenation list. -/
theorem catList_mono (rs rs' : List RE)
    (h : List.Forall₂ (fun r r' => ∀ x, r.rmatch x = true → r'.rmatch x = true) rs rs')
    (x : List Char) (hm : (catList rs).rmatch x = true) :
    (catList rs').rmatch x = true := by
  induction h generalizing x with
  | nil => exact hm
  | cons hab hrest ih =>
    rcases (cat_rmatch_iff _ _ _).mp hm with ⟨t, u, htu, h1, h2⟩
    exact (cat_rmatch_iff _ _ _).mpr ⟨t, u, htu, hab t h1, ih u h2⟩

/-! ## Values, rows and data frames -/

/-- A Python scalar stored in a metadata cell. -/
inductive Val where
  | str (s : String)
  | int (n : Int)
  | bool (b : Bool)
deriving DecidableEq, Repr

/-- Python `str(x)` on such a scalar. -/
def pyStr : Val → String
  | .str s => s
  | .int n => toString n
  | .bool b => if b then "True" else "False"

/-- A data-frame row: column names with their values, in column order.
Rows originate from Python dicts, whose keys are unique. -/
abbrev Row := List (String × Val)

def rowGet (r : Row) (c : String) : Option Val :=
  (r.find? (fun p => p.1 == c)).map (fun p => p.2)

/-- A pandas DataFrame: a column list plus rows.  Each row of the
embedding also carries its own column list; the theorems assume the
uniform schema that `pd.DataFrame([dict, ...])` produces in this
pipeline. -/
structure DF where
  cols : List String
  rows : List Row
deriving DecidableEq, Repr

def grouping_cols : List String := ["participant_id", "ses", "task", "acq"]

/-- The `groupby(grouping_cols)` key of a row. -/
def keyOf (r : Row) : List (Option Val) := grouping_cols.map (rowGet r)

/-- The group of a key: all rows carrying it. -/
def groupRows (t : List Row) (k : List (Option Val)) : List Row :=
  t.filter (fun r => keyOf r == k)

def dedupFirstAux {α : Type} [DecidableEq α] (seen : List α) : List α → List α
  | [] => []
  | k :: ks =>
      if k ∈ seen then dedupFirstAux seen ks
      else k :: dedupFirstAux (k :: seen) ks

/-- Keys in first-occurrence order.  (pandas iterates groups in sorted
key order; the iteration order only decides which inconsistent group is
named in the exception, not whether one is raised.) -/
def dedupFirst {α : Type} [DecidableEq α] (l : List α) : List α := dedupFirstAux [] l

/-- The projection of a row to all columns except `run`
(`subset=[c for c in group.columns if c != 'run']`). -/
def nonRunProj (r : Row) : Row := r.filter (fun p => !(p.1 == "run"))

/-- `group.duplicated(subset=non-run cols, keep=False).sum()`: the number
of rows of the group whose non-`run` projection occurs at least twice in
the group (`keep=False` marks every member of a duplicate class). -/
def t_dup (g : List Row) : Nat :=
  (g.filter (fun r => 1 < g.countP (fun x => nonRunProj x == nonRunProj r))).length

/-- `group['run'].values[0]` of a group. -/
def groupRun (g : List Row) : Option Val :=
  match g with
  | [] => none
  | r :: _ => rowGet r "run"

/-- `len(group) == 1 and group['run'].values[0] != 1`. -/
def badSingle (g : List Row) : Bool :=
  g.length == 1 && !(groupRun g == some (Val.int 1))

/-- `t_dup != len(group) and len(group) > 1`. -/
def badMulti (g : List Row) : Bool :=
  !(t_dup g == g.length) && decide (1 < g.length)

def badGroup (g : List Row) : Bool := badSingle g || badMulti g

/-- `drop_duplicates(subset=grouping_cols, keep='first')`: keep the first
row of every key, in table order. -/
def dropDupFirst (seen : List (List (Option Val))) : List Row → List Row
  | [] => []
  | r :: rs =>
      if keyOf r ∈ seen then dropDupFirst seen rs
      else r :: dropDupFirst (keyOf r :: seen) rs

/-- `reindex([*grouping_cols, *rest], axis=1)` on the column list. -/
def reindexCols (cols : List String) : List String :=
  grouping_cols ++ cols.filter (fun c => !(grouping_cols.contains c))

def reindexRow (cols : List String) (r : Row) : Row :=
  cols.filterMap (fun c => (rowGet r c).map (fun v => (c, v)))

/-- The DataFrame column list: the first row's columns (uniform schema). -/
def tableCols : List Row → List String
  | [] => []
  | r :: _ => r.map (fun p => p.1)

/-- Modelled from the spec: `parseDate` stands for pandas' external
datetime parser inside `pd.to_datetime`.  A column converts only when
every cell parses; otherwise `errors='ignore'` returns the whole column
unchanged. -/
def colParses (parseDate : Val → Option Val) (t : List Row) (c : String) : Bool :=
  t.all (fun r =>
    match rowGet r c with
    | some v => (parseDate v).isSome
    | none => false)

/-- One row's share of the date conversion of table `t`. -/
def convertRow (parseDate : Val → Option Val) (t : List Row) (r : Row) : Row :=
  r.map (fun p =>
    if pyIn "date" p.1 && colParses parseDate t p.1 then
      (p.1, (parseDate p.2).getD p.2)
    else p)

/-- `for c in columns: if 'date' in c: to_datetime(col, errors='ignore')`. -/
def convertDates (parseDate : Val → Option Val) (t : List Row) : List Row :=
  t.map (convertRow parseDate t)

/-- `NICEBIDS._create_metadata` as a function of the raw entries'
metadata rows (`[file.metadata for file in self.files]`): empty input
short-circuits to an empty table with the grouping columns; otherwise
each group is validated (lone row must have `run == 1`; a larger group
must have every row duplicated on the non-`run` columns), duplicates by
key are dropped keeping the first, columns are reordered and
`date`-named columns converted. -/
def create_metadata (parseDate : Val → Option Val) (files : List Row) : Except String DF :=
  if files.length = 0 then .ok ⟨grouping_cols, []⟩
  else
    match (dedupFirst (files.map keyOf)).find? (fun k => badGroup (groupRows files k)) with
    | some k =>
        if badSingle (groupRows files k) then
          .error ("Single files metadata incorrect runs != 1 " ++ reprStr k)
        else
          .error ("Files metadata inconsistent across runs " ++ reprStr k)
    | none =>
        let cols2 := reindexCols (tableCols files)
        let rows2 := (dropDupFirst [] files).map (reindexRow cols2)
        .ok ⟨cols2, convertDates parseDate rows2⟩

/-! ## Recording entries and the query engine -/

/-- A loaded recording entry (`EEGPath` / `DerivativePath` object).
Modelled from the spec: the path-grammar module `nice_bids.paths` is
outside `src/`; per the spec an entry exposes its resolved path string
(`str(file)`), its derivative pipeline name (absent for raw entries) and
the metadata mapping attached at load time. -/
structure BIDSEntry where
  path : String
  derivative : Option String
  metadata : Row
deriving DecidableEq, Repr

/-- `NICEBIDS.query_filter`: every supplied field must occur as a
`field-value` substring of `str(file)`, a supplied suffix as
`_suffix.`, a supplied extension as a path suffix `.ext`, and the
entry's derivative tag must equal the requested one. -/
def query_filter (file : BIDSEntry)
    (sub task ext ses acq run sfx deriv : Option String) : Bool :=
  let zipped_fields := List.zip ["sub", "task", "ses", "acq", "run"]
    [sub, task, ses, acq, run]
  let correct_fields := zipped_fields.all (fun kv =>
    match kv.2 with
    | none => true
    | some v => pyIn (kv.1 ++ "-" ++ v) file.path)
  let correct_sfx :=
    match sfx with
    | none => true
    | some v => pyIn ("_" ++ v ++ ".") file.path
  let correct_ext :=
    match ext with
    | none => true
    | some v => pyEndsWith ("." ++ v) file.path
  let correct_deriv := file.derivative == deriv
  correct_fields && correct_sfx && correct_ext && correct_deriv

/-- `NICEBIDS.get`: normalize `acq`/`run` with `str(x).rjust(rjust,'0')`
and filter the raw-entry list through `query_filter` (whose `derivative`
argument defaults to `None`). -/
def NICEBIDS.get (rjust : Nat) (files : List BIDSEntry) (sub task ext ses : Option String)
    (acq run : Option Val) (sfx : Option String) : List BIDSEntry :=
  let acq2 := acq.map (fun v => rjustZ (pyStr v) rjust)
  let run2 := run.map (fun v => rjustZ (pyStr v) rjust)
  files.filter (fun f => query_filter f sub task ext ses acq2 run2 sfx none)

/-- `NICEBIDS.get_derivatives`: same normalization, over the derivative
entry list, requiring the entry's derivative tag to equal `derivative`. -/
def get_derivatives (rjust : Nat) (derivative_files : List BIDSEntry)
    (derivative : String) (sfx ext sub ses task : Option String)
    (acq run : Option Val) : List BIDSEntry :=
  let acq2 := acq.map (fun v => rjustZ (pyStr v) rjust)
  let run2 := run.map (fun v => rjustZ (pyStr v) rjust)
  derivative_files.filter
    (fun f => query_filter f sub task ext ses acq2 run2 sfx (some derivative))

/-- `NICEBIDS.to_df`: exact-value filtering on a copy of the metadata
table.  `acq`/`run` are NOT normalized here: the raw Python values are
compared by `res[res[field] == val]`. -/
def to_df (metadata : DF) (sub task ses : Option String)
    (acq run : Option Val) : DF :=
  let fields_to_filter : List (String × Option Val) :=
    [("participant_id", sub.map (fun s => Val.str ("sub-" ++ s))),
     ("task", task.map Val.str),
     ("ses", ses.map Val.str),
     ("acq", acq),
     ("run", run)]
  { metadata with
    rows := fields_to_filter.foldl (fun rs fv =>
      match fv.2 with
      | none => rs
      | some v => rs.filter (fun r => rowGet r fv.1 == some v)) metadata.rows }

/-! ## The catalog object and its stateful operations -/

/-- The `NICEBIDS` object state relevant to the verified operations. -/
structure NICEBIDS where
  root : String
  rjust : Nat
  subset_sub : List String
  subset_ses : List String
  subset_task : List String
  subset_acq : List String
  derivatives_to_load : Option (List String)
  participants : List (String × Row)
  files : List BIDSEntry
  derivative_files : List BIDSEntry
  metadata : DF
deriving DecidableEq, Repr

/-- `self.participants.loc[key]` (a missing key raises `KeyError`). -/
def locGet (parts : List (String × Row)) (key : String) : Option Row :=
  (parts.find? (fun p => p.1 == key)).map (fun p => p.2)

/-- Assigning one cell of a row dict. -/
def rowSet (r : Row) (c : String) (v : Val) : Row :=
  if r.any (fun p => p.1 == c) then
    r.map (fun p => if p.1 == c then (p.1, v) else p)
  else r ++ [(c, v)]

/-- `self.participants.loc[key, col] = v`: update the keyed row, or
append a fresh row when the key is new (pandas loc-enlargement; the NaN
cells pandas would add to the other rows of a brand-new column are not
tracked — only assigned cells matter to the claims below). -/
def locSet (parts : List (String × Row)) (key col : String) (v : Val) :
    List (String × Row) :=
  if parts.any (fun p => p.1 == key) then
    parts.map (fun p => if p.1 == key then (p.1, rowSet p.2 col v) else p)
  else parts ++ [(key, [(col, v)])]

/-- The subject filter of `_read_participants`: when `subset['sub']` is
not the wildcard `['.+']`, keep exactly the rows whose index is one of
`sub-<s>`. -/
def filterParticipants (subs : List String) (parts : List (String × Row)) :
    List (String × Row) :=
  if subs == [".+"] then parts
  else parts.filter (fun p => (subs.map (fun s => "sub-" ++ s)).contains p.1)

/-- `_create_metadata` as a state step: rebuild `self.metadata` from the
current raw-entry list, everything else untouched. -/
def create_metadata_step (parseDate : Val → Option Val) (s : NICEBIDS) :
    Except String NICEBIDS :=
  (create_metadata parseDate (s.files.map (fun f => f.metadata))).map
    (fun t => { s with metadata := t })

def headIsSlash : List Char → Bool
  | '/' :: _ => true
  | _ => false

/-- `re.search('sub-([a-zA-Z0-9]+)/', file).group(1)`: the leftmost
position where `sub-` is followed by a nonempty alphanumeric run and a
slash; the captured run. -/
def extractSub : List Char → Option String
  | [] => none
  | c :: rest =>
      if leadsWith ['s', 'u', 'b', '-'] (c :: rest) then
        let after := (c :: rest).drop 4
        let aRun := after.takeWhile (fun ch => ch.isAlpha || ch.isDigit)
        if !aRun.isEmpty && headIsSlash (after.drop aRun.length) then
          some (String.mk aRun)
        else extractSub rest
      else extractSub rest

/-- Modelled from the spec: the external collaborators of
`_read_derivatives` — the `glob` over the derivatives subtree (`none`
when no `derivatives/` folder exists), the path classifier
`BIDSPath.correct_filepath(·, 'derivative')`, and the `DerivativePath`
constructor attaching the owner's metadata row. -/
structure DerivEnv where
  derivGlob : Option (List String)
  correct_filepath : String → Bool
  mkEntry : String → Row → BIDSEntry

def optErr {α : Type} (o : Option α) (msg : String) : Except String α :=
  match o with
  | some a => .ok a
  | none => .error msg

/-- `NICEBIDS._read_derivatives`: when there is no `derivatives/`
folder, report and return — the state is untouched.  Otherwise keep the
glob hits matching the composite pattern, then those the classifier
accepts, attach each owning subject's participant row (a missing
subject raises), and store the loaded list in `self.derivative_files`. -/
def read_derivatives (env : DerivEnv) (s : NICEBIDS) : Except String NICEBIDS :=
  match env.derivGlob with
  | none => .ok s
  | some globFiles =>
      let derivAlts :=
        match s.derivatives_to_load with
        | none => [".+"]
        | some ds => ds
      let pat := derivFilePattern s.root derivAlts
        s.subset_sub s.subset_ses s.subset_task s.subset_acq
      let fs1 := globFiles.filter (fun f => pyReMatch pat f)
      let fs2 := fs1.filter env.correct_filepath
      (fs2.mapM (fun (f : String) => do
        let sub ← optErr (extractSub f.data) "AttributeError: no sub- token"
        let row ← optErr (locGet s.participants ("sub-" ++ sub))
          ("KeyError: sub-" ++ sub)
        pure (env.mkEntry f row))).map
        (fun entries => { s with derivative_files := entries })

/-- `NICEBIDS.reload_derivatives`: `_read_derivatives()` then
`_create_metadata()`. -/
def reload_derivatives (env : DerivEnv) (parseDate : Val → Option Val)
    (s : NICEBIDS) : Except String NICEBIDS :=
  (read_derivatives env s).bind (create_metadata_step parseDate)

/-- Modelled from the spec: the on-disk state `add` mutates — the
extracted recording packages, the persisted `participants.tsv`, and the
sidecar JSON records. -/
structure AddDisk where
  packages : List (String × String × String × String)
  participantsTsv : List (String × Row)
  sidecars : List ((String × String × String × String) × String)
deriving DecidableEq, Repr

/-- `NICEBIDS.add(zip_file, sub, ses, task, acq, setup)`: raise a
conflict when `self.get(sub=sub, ses=ses, task=task, acq=acq)` —
evaluated against the IN-MEMORY raw-entry list, which `add` never
updates — is nonempty; otherwise copy and extract the package (modelled
as appending its key to the extracted-package list), set the subject's
task column to `True` in the in-memory participant table, persist that
table as `participants.tsv`, and write the setup sidecar. -/
def add (s : NICEBIDS) (d : AddDisk) (sub ses task acq setup : String) :
    Except String (NICEBIDS × AddDisk) :=
  if (NICEBIDS.get s.rjust s.files (some sub) (some task) none (some ses)
        (some (Val.str acq)) none none).length ≠ 0 then
    .error ("Data already exists for " ++ sub ++ " " ++ ses ++ " " ++ task
      ++ " " ++ acq)
  else
    let parts2 := locSet s.participants ("sub-" ++ sub) task (Val.bool true)
    .ok ({ s with participants := parts2 },
         { packages := d.packages ++ [(sub, ses, task, acq)],
           participantsTsv := parts2,
           sidecars := d.sidecars ++ [((sub, ses, task, acq), setup)] })

/-! ## Helper lemmas -/

theorem mem_dedupFirstAux {α : Type} [DecidableEq α] (a : α) (l : List α) :
    ∀ seen, a ∈ dedupFirstAux seen l ↔ a ∈ l ∧ a ∉ seen := by
  induction l with
  | nil => intro seen; simp [dedupFirstAux]
  | cons k ks ih =>
    intro seen
    unfold dedupFirstAux
    by_cases hk : k ∈ seen
    · rw [if_pos hk, ih seen]
      constructor
      · rintro ⟨h1, h2⟩; exact ⟨List.mem_cons_of_mem _ h1, h2⟩
      · rintro ⟨h1, h2⟩
        rcases List.mem_cons.mp h1 with rfl | h1
        · exact absurd hk h2
        · exact ⟨h1, h2⟩
    · rw [if_neg hk]
      constructor
      · intro h
        rcases List.mem_cons.mp h with rfl | h
        · exact ⟨List.mem_cons_self _ _, hk⟩
        · rcases (ih (k :: seen)).mp h with ⟨h1, h2⟩
          exact ⟨List.mem_cons_of_mem _ h1,
            fun hs => h2 (List.mem_cons_of_mem _ hs)⟩
      · rintro ⟨h1, h2⟩
        rcases List.mem_cons.mp h1 with rfl | h1
        · exact List.mem_cons_self _ _
        · by_cases hak : a = k
          · subst hak; exact List.mem_cons_self _ _
          · exact List.mem_cons_of_mem _ ((ih (k :: seen)).mpr
              ⟨h1, fun hs => by
                rcases List.mem_cons.mp hs with h | h
                · exact hak h
                · exact h2 h⟩)

theorem mem_dedupFirst {α : Type} [DecidableEq α] (a : α) (l : List α) :
    a ∈ dedupFirst l ↔ a ∈ l := by
  rw [dedupFirst, mem_dedupFirstAux]
  simp

theorem rjustZ_length (s : String) (w : Nat) :
    (rjustZ s w).length = max w s.length := by
  unfold rjustZ
  by_cases h : w ≤ s.length
  · rw [if_pos h]; omega
  · rw [if_neg h]
    rw [String.length_append]
    show (List.replicate (w - s.length) '0').length + s.length = _
    rw [List.length_replicate]
    omega

theorem rjustZ_idem (s : String) (w : Nat) : rjustZ (rjustZ s w) w = rjustZ s w := by
  have h : w ≤ (rjustZ s w).length := by
    rw [rjustZ_length]
    exact Nat.le_max_left _ _
  conv_lhs => rw [rjustZ]
  rw [if_pos h]

/-- The index column of `loc[key, col] = v`: unchanged when the key
exists, the key appended otherwise. -/
theorem ids_locSet (parts : List (String × Row)) (key col : String) (v : Val) :
    (locSet parts key col v).map Prod.fst =
      if parts.any (fun p => p.1 == key) then parts.map Prod.fst
      else parts.map Prod.fst ++ [key] := by
  unfold locSet
  by_cases h : parts.any (fun p => p.1 == key)
  · rw [if_pos h, if_pos h, List.map_map]
    apply List.map_congr_left
    intro p _
    simp only [Function.comp_apply]
    split
    · rfl
    · rfl
  · rw [if_neg h, if_neg h]
    simp

/-! ## C6 -/

/-- C6: with an empty raw-entry list, `_create_metadata` produces —
without raising — an empty table whose columns are exactly the four
grouping columns `participant_id`, `ses`, `task`, `acq`. -/
theorem c6_empty_input_empty_table (parseDate : Val → Option Val) :
    create_metadata parseDate [] =
      .ok ⟨["participant_id", "ses", "task", "acq"], []⟩ := rfl

/-! ## C9 -/

/-- C9: metadata consolidation is idempotent — whenever a run of
`_create_metadata` succeeds on the current raw-entry list, running it
again over the same list succeeds and leaves the whole catalog state
(including the metadata table) bit-identical. -/
theorem c9_create_metadata_idempotent (parseDate : Val → Option Val)
    (s s' : NICEBIDS) (h : create_metadata_step parseDate s = .ok s') :
    create_metadata_step parseDate s' = .ok s' := by
  unfold create_metadata_step at h ⊢
  cases hm : create_metadata parseDate (s.files.map (fun f => f.metadata)) with
  | error e =>
    rw [hm] at h
    exact absurd h (by simp [Except.map])
  | ok t =>
    rw [hm] at h
    simp only [Except.map] at h
    have hs' : { s with metadata := t } = s' := by
      injection h
    subst hs'
    have hfiles : ({ s with metadata := t } : NICEBIDS).files = s.files := rfl
    rw [hfiles, hm]
    rfl

def c9s0 : NICEBIDS :=
  ⟨"r", 2, [".+"], [".+"], [".+"], [".+"], none, [], [], [], ⟨[], []⟩⟩

def c9s1 : NICEBIDS :=
  { c9s0 with metadata := ⟨["participant_id", "ses", "task", "acq"], []⟩ }

theorem c9_witness :
    create_metadata_step (fun _ => none) c9s1 = .ok c9s1 :=
  c9_create_metadata_idempotent (fun _ => none) c9s0 c9s1 rfl

/-! ## C8 -/

/-- C8: when no `derivatives/` subtree exists, `_read_derivatives` is a
no-op leaving the whole state (in particular any previously loaded
derivative list) untouched, and `reload_derivatives` reduces to the
metadata rebuild alone, which changes nothing but the metadata table. -/
theorem c8_read_derivatives_noop (env : DerivEnv) (parseDate : Val → Option Val)
    (s : NICEBIDS) (h : env.derivGlob = none) :
    read_derivatives env s = .ok s ∧
    reload_derivatives env parseDate s = create_metadata_step parseDate s ∧
    (∀ s', create_metadata_step parseDate s = .ok s' →
      s'.files = s.files ∧ s'.derivative_files = s.derivative_files ∧
      s'.participants = s.participants ∧ s'.root = s.root ∧
      s'.rjust = s.rjust) := by
  have h1 : read_derivatives env s = .ok s := by
    unfold read_derivatives
    rw [h]
  refine ⟨h1, ?_, ?_⟩
  · unfold reload_derivatives
    rw [h1]
    rfl
  · intro s' hs'
    unfold create_metadata_step at hs'
    cases hm : create_metadata parseDate (s.files.map (fun f => f.metadata)) with
    | error e =>
      rw [hm] at hs'
      exact absurd hs' (by simp [Except.map])
    | ok t =>
      rw [hm] at hs'
      simp only [Except.map] at hs'
      have : { s with metadata := t } = s' := by injection hs'
      subst this
      exact ⟨rfl, rfl, rfl, rfl, rfl⟩

def c8env : DerivEnv := ⟨none, fun _ => false, fun p r => ⟨p, none, r⟩⟩

def c8s : NICEBIDS :=
  ⟨"r", 2, [".+"], [".+"], [".+"], [".+"], none,
   [("sub-01", [("age", Val.int 30)])], [],
   [⟨"old", some "pipe", []⟩], ⟨[], []⟩⟩

theorem c8_witness :
    read_derivatives c8env c8s = .ok c8s ∧
    reload_derivatives c8env (fun _ => none) c8s
      = create_metadata_step (fun _ => none) c8s :=
  ⟨(c8_read_derivatives_noop c8env (fun _ => none) c8s rfl).1,
   (c8_read_derivatives_noop c8env (fun _ => none) c8s rfl).2.1⟩

/-! ## C3 -/

def c3s0 : NICEBIDS :=
  ⟨"r", 2, [".+"], [".+"], [".+"], [".+"], none,
   [("sub-01", [("age", Val.int 30)])], [], [], ⟨[], []⟩⟩

def c3d0 : AddDisk := ⟨[], [("sub-01", [("age", Val.int 30)])], []⟩

def c3parts : List (String × Row) :=
  [("sub-01", [("age", Val.int 30), ("A", Val.bool true)])]

def c3s1 : NICEBIDS := { c3s0 with participants := c3parts }

def c3d1 : AddDisk :=
  ⟨[("01", "01", "A", "01")], c3parts, [(("01", "01", "A", "01"), "setup")]⟩

def c3d2 : AddDisk :=
  ⟨[("01", "01", "A", "01"), ("01", "01", "A", "01")], c3parts,
   [(("01", "01", "A", "01"), "setup"), (("01", "01", "A", "01"), "setup")]⟩

/-- C3 (code bug): on a catalog whose in-memory raw-entry list does not
contain (sub-01, ses-01, task-A, acq-01), calling `add` twice in
succession with those arguments SUCCEEDS both times — the conflict check
consults `self.files`, which `add` never updates — and the second call
re-extracts the package, appends a second sidecar and rewrites
`participants.tsv`, instead of failing with the conflict error the
specification requires. -/
theorem c3_second_add_succeeds :
    add c3s0 c3d0 "01" "01" "A" "01" "setup" = .ok (c3s1, c3d1) ∧
    add c3s1 c3d1 "01" "01" "A" "01" "setup" = .ok (c3s1, c3d2) := by
  constructor
  · rfl
  · rfl

/-! ## C10 -/

/-- C10: on a catalog built with a subject filter, the participant table
held in memory is the filtered one; a successful `add` persists exactly
that table (with the target subject's row updated or appended), so the
persisted `participants.tsv` contains only filter-selected subjects plus
possibly the added subject, and every row the filter excluded is gone
from disk. -/
theorem c10_add_persists_filtered_participants
    (P : List (String × Row)) (subs : List String) (s : NICEBIDS)
    (d : AddDisk) (sub ses task acq setup : String) (s' : NICEBIDS)
    (d' : AddDisk)
    (hparts : s.participants = filterParticipants subs P)
    (hok : add s d sub ses task acq setup = .ok (s', d')) :
    (∀ pid ∈ d'.participantsTsv.map Prod.fst,
        pid ∈ (filterParticipants subs P).map Prod.fst ∨ pid = "sub-" ++ sub) ∧
    (∀ pid ∈ P.map Prod.fst,
        pid ∉ (filterParticipants subs P).map Prod.fst →
        pid ≠ "sub-" ++ sub →
        pid ∉ d'.participantsTsv.map Prod.fst) := by
  unfold add at hok
  by_cases hc : (NICEBIDS.get s.rjust s.files (some sub) (some task) none (some ses)
      (some (Val.str acq)) none none).length ≠ 0
  · rw [if_pos hc] at hok
    cases hok
  · rw [if_neg hc] at hok
    have hd' : d' = ⟨d.packages ++ [(sub, ses, task, acq)],
        locSet s.participants ("sub-" ++ sub) task (Val.bool true),
        d.sidecars ++ [((sub, ses, task, acq), setup)]⟩ := by
      have := congrArg (fun x : Except String (NICEBIDS × AddDisk) =>
        match x with
        | .ok p => p.2
        | .error _ => d') hok
      simpa using this.symm
    have hids := ids_locSet s.participants ("sub-" ++ sub) task (Val.bool true)
    rw [hparts] at hids
    constructor
    · intro pid hpid
      rw [hd'] at hpid
      simp only at hpid
      rw [hparts, hids] at hpid
      by_cases hany : (filterParticipants subs P).any
          (fun p => p.1 == "sub-" ++ sub)
      · rw [if_pos hany] at hpid
        exact Or.inl hpid
      · rw [if_neg hany] at hpid
        rcases List.mem_append.mp hpid with h | h
        · exact Or.inl h
        · exact Or.inr (List.mem_singleton.mp h)
    · intro pid _ hnotin hne
      rw [hd']
      simp only
      rw [hparts, hids]
      by_cases hany : (filterParticipants subs P).any
          (fun p => p.1 == "sub-" ++ sub)
      · rw [if_pos hany]
        exact hnotin
      · rw [if_neg hany]
        intro hmem
        rcases List.mem_append.mp hmem with h | h
        · exact hnotin h
        · exact hne (List.mem_singleton.mp h)

def c10P : List (String × Row) :=
  [("sub-01", [("age", Val.int 30)]), ("sub-02", [("age", Val.int 40)])]

def c10s : NICEBIDS :=
  ⟨"r", 2, ["01"], [".+"], [".+"], [".+"], none,
   filterParticipants ["01"] c10P, [], [], ⟨[], []⟩⟩

def c10parts : List (String × Row) :=
  locSet (filterParticipants ["01"] c10P) "sub-01" "A" (Val.bool true)

def c10s1 : NICEBIDS := { c10s with participants := c10parts }

def c10d1 : AddDisk :=
  ⟨[("01", "01", "A", "01")], c10parts, [(("01", "01", "A", "01"), "setup")]⟩

theorem c10_witness :
    "sub-01" ∈ (filterParticipants ["01"] c10P).map Prod.fst ∨
      "sub-01" = "sub-" ++ "01" :=
  (c10_add_persists_filtered_participants c10P ["01"] c10s
    ⟨[], filterParticipants ["01"] c10P, []⟩ "01" "01" "A" "01" "setup"
    c10s1 c10d1 rfl rfl).1 "sub-01" (by decide)

/-! ## C2 -/

/-- Any group failing a validation check aborts `_create_metadata`. -/
theorem create_metadata_error_of_bad (parseDate : Val → Option Val)
    (rows : List Row) (k : List (Option Val)) (hk : k ∈ rows.map keyOf)
    (hbad : badGroup (groupRows rows k) = true) :
    ∃ e, create_metadata parseDate rows = .error e := by
  have hne : rows ≠ [] := by
    rintro rfl
    simp at hk
  have hk2 : k ∈ dedupFirst (rows.map keyOf) := (mem_dedupFirst _ _).mpr hk
  have hsome : ((dedupFirst (rows.map keyOf)).find?
      (fun k' => badGroup (groupRows rows k'))).isSome := by
    rw [List.find?_isSome]
    exact ⟨k, hk2, hbad⟩
  obtain ⟨k', hfind⟩ := Option.isSome_iff_exists.mp hsome
  unfold create_metadata
  rw [if_neg (fun h0 => hne (List.length_eq_zero.mp h0))]
  rw [hfind]
  dsimp only
  split
  · exact ⟨_, rfl⟩
  · exact ⟨_, rfl⟩

/-- C2: a (participant_id, ses, task, acq) group consisting of exactly
one row whose `run` value is not the integer 1 makes `_create_metadata`
raise; and a lone input row with `run = 1` consolidates with no error
into a one-row table. -/
theorem c2_lone_file_run_check (parseDate : Val → Option Val) :
    (∀ (rows : List Row) (k : List (Option Val)),
      (groupRows rows k).length = 1 →
      groupRun (groupRows rows k) ≠ some (Val.int 1) →
      ∃ e, create_metadata parseDate rows = .error e) ∧
    (∀ r : Row, rowGet r "run" = some (Val.int 1) →
      ∃ t, create_metadata parseDate [r] = .ok t ∧ t.rows.length = 1) := by
  constructor
  · intro rows k hlen hrun
    obtain ⟨r0, hr0⟩ := List.length_eq_one.mp hlen
    have hmem : r0 ∈ groupRows rows k := by
      rw [hr0]
      exact List.mem_singleton.mpr rfl
    have hr0' := List.mem_filter.mp hmem
    have hkey : k = keyOf r0 := by
      have := hr0'.2
      simp only [beq_iff_eq] at this
      exact this.symm
    have hk : k ∈ rows.map keyOf := by
      rw [hkey]
      exact List.mem_map_of_mem keyOf hr0'.1
    apply create_metadata_error_of_bad parseDate rows k hk
    unfold badGroup badSingle
    rw [hlen]
    have : (groupRun (groupRows rows k) == some (Val.int 1)) = false := by
      rw [beq_eq_false_iff_ne]
      exact hrun
    rw [this]
    rfl
  · intro r hrun
    have hgr : groupRows [r] (keyOf r) = [r] := by
      simp [groupRows]
    have hbad : badGroup (groupRows [r] (keyOf r)) = false := by
      rw [hgr]
      simp [badGroup, badSingle, badMulti, groupRun, hrun, t_dup]
    refine ⟨⟨reindexCols (tableCols [r]),
      convertDates parseDate ((dropDupFirst [] [r]).map
        (reindexRow (reindexCols (tableCols [r]))))⟩, ?_, ?_⟩
    · unfold create_metadata
      rw [if_neg (by simp)]
      have hdedup : dedupFirst ([r].map keyOf) = [keyOf r] := by
        simp [dedupFirst, dedupFirstAux]
      rw [hdedup]
      have hfind : ([keyOf r].find? (fun k' => badGroup (groupRows [r] k')))
          = none := by
        rw [List.find?_eq_none]
        intro x hx
        rw [List.mem_singleton.mp hx, hbad]
        simp
      rw [hfind]
    · simp [convertDates, dropDupFirst]

/-! ## C1 -/

theorem rowGet_cons (c' : String) (v : Val) (r : Row) (c : String) :
    rowGet ((c', v) :: r) c = if c' == c then some v else rowGet r c := by
  unfold rowGet
  rw [List.find?_cons]
  by_cases h : (c' == c) = true
  · simp [h]
  · have h' : (c' == c) = false := by simpa using h
    simp [h']

theorem rowGet_reindexRow (cols : List String) (r : Row) (c : String) :
    rowGet (reindexRow cols r) c = if c ∈ cols then rowGet r c else none := by
  induction cols with
  | nil => simp [reindexRow, rowGet]
  | cons c' cs ih =>
    unfold reindexRow at ih ⊢
    rw [List.filterMap_cons]
    cases hv : rowGet r c' with
    | none =>
      simp only [Option.map_none']
      rw [ih]
      by_cases hc : c = c'
      · subst hc
        by_cases hcs : c ∈ cs
        · simp [hcs]
        · simp [hcs, hv]
      · simp [List.mem_cons, hc]
    | some v =>
      simp only [Option.map_some']
      rw [rowGet_cons, ih]
      by_cases hcc : c' = c
      · subst hcc
        simp [hv]
      · have h1 : (c' == c) = false := by simpa using hcc
        have h2 : c ≠ c' := Ne.symm hcc
        rw [h1]
        simp only [Bool.false_eq_true, if_false]
        by_cases hcs : c ∈ cs
        · simp [hcs, List.mem_cons, h2]
        · simp [hcs, List.mem_cons, h2]

theorem grouping_mem_reindexCols (cols : List String) :
    ∀ c ∈ grouping_cols, c ∈ reindexCols cols := by
  intro c hc
  exact List.mem_append_left _ hc

theorem keyOf_reindexRow (cols : List String) (r : Row)
    (h : ∀ c ∈ grouping_cols, c ∈ cols) :
    keyOf (reindexRow cols r) = keyOf r := by
  unfold keyOf
  apply List.map_congr_left
  intro c hc
  rw [rowGet_reindexRow, if_pos (h c hc)]

theorem rowGet_convertRow (parseDate : Val → Option Val) (t : List Row)
    (r : Row) (c : String) (hc : pyIn "date" c = false) :
    rowGet (convertRow parseDate t r) c = rowGet r c := by
  unfold rowGet convertRow
  rw [List.find?_map]
  have hcomp : ((fun p : String × Val => p.1 == c) ∘
      (fun p : String × Val =>
        if pyIn "date" p.1 && colParses parseDate t p.1 then
          (p.1, (parseDate p.2).getD p.2)
        else p)) = (fun p : String × Val => p.1 == c) := by
    funext p
    simp only [Function.comp_apply]
    split
    · rfl
    · rfl
  rw [hcomp]
  cases hf : r.find? (fun p => p.1 == c) with
  | none => rfl
  | some p =>
    have hp1 : p.1 = c := by
      have := List.find?_some hf
      simpa using this
    simp only [Option.map_some']
    have hfix : (if pyIn "date" p.1 && colParses parseDate t p.1 then
        (p.1, (parseDate p.2).getD p.2) else p) = p := by
      rw [hp1, hc]
      simp
    rw [hfix]

theorem keyOf_convertRow (parseDate : Val → Option Val) (t : List Row)
    (r : Row) : keyOf (convertRow parseDate t r) = keyOf r := by
  unfold keyOf
  apply List.map_congr_left
  intro c hc
  have hdate : pyIn "date" c = false := by
    fin_cases hc <;> rfl
  exact rowGet_convertRow parseDate t r c hdate

theorem dropDupFirst_keys_notin (rows : List Row) :
    ∀ seen, ∀ r ∈ dropDupFirst seen rows, keyOf r ∉ seen := by
  induction rows with
  | nil => intro seen r hr; cases hr
  | cons r0 rs ih =>
    intro seen r hr
    unfold dropDupFirst at hr
    by_cases hm : keyOf r0 ∈ seen
    · rw [if_pos hm] at hr
      exact ih seen r hr
    · rw [if_neg hm] at hr
      rcases List.mem_cons.mp hr with rfl | hr
      · exact hm
      · intro hs
        exact ih (keyOf r0 :: seen) r hr (List.mem_cons_of_mem _ hs)

theorem dropDupFirst_filter_seen (rows : List Row) (seen : List (List (Option Val)))
    (k : List (Option Val)) (hk : k ∈ seen) :
    (dropDupFirst seen rows).filter (fun r => keyOf r == k) = [] := by
  rw [List.filter_eq_nil_iff]
  intro r hr hrk
  have := dropDupFirst_keys_notin rows seen r hr
  rw [beq_iff_eq] at hrk
  rw [hrk] at this
  exact this hk

theorem dropDupFirst_filter_key (rows : List Row) :
    ∀ (seen : List (List (Option Val))) (k : List (Option Val)), k ∉ seen →
    (dropDupFirst seen rows).filter (fun r => keyOf r == k)
      = (rows.filter (fun r => keyOf r == k)).take 1 := by
  induction rows with
  | nil => intro seen k _; rfl
  | cons r rs ih =>
    intro seen k hk
    unfold dropDupFirst
    by_cases hm : keyOf r ∈ seen
    · rw [if_pos hm]
      have hne : (keyOf r == k) = false := by
        rw [beq_eq_false_iff_ne]
        intro he
        rw [he] at hm
        exact hk hm
      rw [List.filter_cons, hne]
      simp only [Bool.false_eq_true, if_false]
      exact ih seen k hk
    · rw [if_neg hm]
      by_cases hrk : (keyOf r == k) = true
      · have hkr : k = keyOf r := by
          rw [beq_iff_eq] at hrk
          exact hrk.symm
        rw [List.filter_cons, List.filter_cons, hrk]
        simp only [if_true]
        rw [dropDupFirst_filter_seen rs (keyOf r :: seen) k
          (by rw [hkr]; exact List.mem_cons_self _ _)]
        simp
      · have hrk' : (keyOf r == k) = false := by
          simpa using hrk
        rw [List.filter_cons, List.filter_cons, hrk']
        simp only [Bool.false_eq_true, if_false]
        exact ih (keyOf r :: seen) k (by
          intro hks
          rcases List.mem_cons.mp hks with he | hs
          · rw [beq_eq_false_iff_ne] at hrk'
            exact hrk' he.symm
          · exact hk hs)

theorem filter_key_map_preserve (f : Row → Row) (t : List Row)
    (k : List (Option Val)) (hf : ∀ r, keyOf (f r) = keyOf r) :
    (t.map f).filter (fun r => keyOf r == k)
      = (t.filter (fun r => keyOf r == k)).map f := by
  rw [List.filter_map]
  have : ((fun r => keyOf r == k) ∘ f) = (fun r => keyOf r == k) := by
    funext r
    simp [Function.comp_apply, hf r]
  rw [this]

def c1row (run age : Int) : Row :=
  [("participant_id", Val.str "sub-01"), ("ses", Val.str "01"),
   ("task", Val.str "A"), ("acq", Val.str "01"),
   ("run", Val.int run), ("age", Val.int age)]

/-- C1 counterexample: four rows of one (participant_id, ses, task, acq)
group made of two distinct duplicate-pairs (ages 10,10,20,20).  The rows
are NOT all pairwise identical outside `run`, yet `_create_metadata`
raises no error — `duplicated(keep=False).sum()` equals the group size
because every row has at least one duplicate partner — and the group
collapses to its first row.  The claim, which demands a hard error for
any group not pairwise identical outside `run`, is therefore false. -/
theorem c1_counterexample :
    nonRunProj (c1row 1 10) ≠ nonRunProj (c1row 3 20) ∧
    keyOf (c1row 1 10) = keyOf (c1row 3 20) ∧
    create_metadata (fun _ => none)
        [c1row 1 10, c1row 2 10, c1row 3 20, c1row 4 20]
      = .ok ⟨["participant_id", "ses", "task", "acq", "run", "age"],
             [c1row 1 10]⟩ := by
  refine ⟨by decide, by decide, by rfl⟩

/-- C1 (amended): in a group with more than one row, `_create_metadata`
raises iff demanded by the code's duplicate count: it errors whenever
the number of rows having a duplicate partner outside `run` differs
from the group size (in particular when some row's non-`run` metadata is
unique in the group); and whenever consolidation succeeds, each group
collapses to exactly its first row — reindexed to the canonical column
order and date-converted. -/
theorem c1_amended_dup_check (parseDate : Val → Option Val) :
    (∀ (rows : List Row) (k : List (Option Val)),
      1 < (groupRows rows k).length →
      t_dup (groupRows rows k) ≠ (groupRows rows k).length →
      ∃ e, create_metadata parseDate rows = .error e) ∧
    (∀ (rows : List Row) (k : List (Option Val)) (t : DF),
      create_metadata parseDate rows = .ok t →
      t.rows.filter (fun r => keyOf r == k) =
        ((groupRows rows k).take 1).map (fun r =>
          convertRow parseDate
            ((dropDupFirst [] rows).map
              (reindexRow (reindexCols (tableCols rows))))
            (reindexRow (reindexCols (tableCols rows)) r))) := by
  constructor
  · intro rows k hlen hdup
    have hne : groupRows rows k ≠ [] := by
      intro he
      rw [he] at hlen
      simp at hlen
    obtain ⟨r0, hr0⟩ := List.exists_mem_of_ne_nil _ hne
    have hr0' := List.mem_filter.mp hr0
    have hk : k ∈ rows.map keyOf := by
      have : keyOf r0 = k := by simpa using hr0'.2
      rw [← this]
      exact List.mem_map_of_mem keyOf hr0'.1
    apply create_metadata_error_of_bad parseDate rows k hk
    unfold badGroup badMulti
    have h1 : (t_dup (groupRows rows k) == (groupRows rows k).length) = false := by
      rw [beq_eq_false_iff_ne]
      exact hdup
    rw [h1]
    have h2 : decide (1 < (groupRows rows k).length) = true := by
      simpa using hlen
    rw [h2]
    simp
  · intro rows k t hok
    by_cases hnil : rows.length = 0
    · have hrows : rows = [] := List.length_eq_zero.mp hnil
      subst hrows
      have : t = ⟨grouping_cols, []⟩ := by
        have h := hok.symm.trans (c6_empty_input_empty_table parseDate)
        injection h
      subst this
      simp [groupRows]
    · unfold create_metadata at hok
      rw [if_neg hnil] at hok
      cases hfind : (dedupFirst (rows.map keyOf)).find?
          (fun k' => badGroup (groupRows rows k')) with
      | some k' =>
        rw [hfind] at hok
        dsimp only at hok
        split at hok
        · cases hok
        · cases hok
      | none =>
        rw [hfind] at hok
        dsimp only at hok
        have ht : t = ⟨reindexCols (tableCols rows),
            convertDates parseDate ((dropDupFirst [] rows).map
              (reindexRow (reindexCols (tableCols rows))))⟩ := by
          injection hok with h
          exact h.symm
        subst ht
        show (convertDates parseDate _).filter _ = _
        rw [convertDates,
          filter_key_map_preserve _ _ k
            (fun r => keyOf_convertRow parseDate _ r),
          filter_key_map_preserve _ _ k
            (fun r => keyOf_reindexRow _ r (grouping_mem_reindexCols _)),
          dropDupFirst_filter_key rows [] k (by simp)]
        have hgr : rows.filter (fun r => keyOf r == k) = groupRows rows k := rfl
        rw [hgr, List.map_map]
        rfl

def c2row (run : Int) : Row :=
  [("participant_id", Val.str "sub-01"), ("ses", Val.str "01"),
   ("task", Val.str "A"), ("acq", Val.str "01"), ("run", Val.int run)]

theorem c2_witness :
    (∃ e, create_metadata (fun _ => none) [c2row 2] = .error e) ∧
    (∃ t, create_metadata (fun _ => none) [c2row 1] = .ok t ∧
      t.rows.length = 1) :=
  ⟨(c2_lone_file_run_check (fun _ => none)).1 [c2row 2] (keyOf (c2row 2))
      (by decide) (by decide),
   (c2_lone_file_run_check (fun _ => none)).2 (c2row 1) (by decide)⟩

def c1df : DF :=
  ⟨["participant_id", "ses", "task", "acq", "run", "age"], [c1row 1 10]⟩

theorem c1_witness :
    (∃ e, create_metadata (fun _ => none) [c1row 1 10, c1row 2 30]
        = .error e) ∧
    c1df.rows.filter (fun r => keyOf r == keyOf (c1row 1 10)) =
      ((groupRows [c1row 1 10] (keyOf (c1row 1 10))).take 1).map (fun r =>
        convertRow (fun _ => none)
          ((dropDupFirst [] [c1row 1 10]).map
            (reindexRow (reindexCols (tableCols [c1row 1 10]))))
          (reindexRow (reindexCols (tableCols [c1row 1 10])) r)) :=
  ⟨(c1_amended_dup_check (fun _ => none)).1 [c1row 1 10, c1row 2 30]
      (keyOf (c1row 1 10)) (by decide) (by decide),
   (c1_amended_dup_check (fun _ => none)).2 [c1row 1 10]
      (keyOf (c1row 1 10)) c1df (by rfl)⟩

/-! ## C4 -/

/-- C4 (amended): `get` and `get_derivatives` do treat an integer
acquisition `n` exactly like its zero-padded string form, because both
normalize with `str(x).rjust(width, '0')` and padding is idempotent.
(The constructor and `to_df` do not — see the counterexample.) -/
theorem c4_query_int_str_equiv (rjust : Nat) (n : Int)
    (files dfiles : List BIDSEntry) (dname : String)
    (sub task ext ses sfx : Option String) (run : Option Val) :
    NICEBIDS.get rjust files sub task ext ses (some (Val.int n)) run sfx
      = NICEBIDS.get rjust files sub task ext ses
          (some (Val.str (int2str n rjust))) run sfx ∧
    get_derivatives rjust dfiles dname sfx ext sub ses task
        (some (Val.int n)) run
      = get_derivatives rjust dfiles dname sfx ext sub ses task
          (some (Val.str (int2str n rjust))) run := by
  have hpad : rjustZ (pyStr (Val.str (int2str n rjust))) rjust
      = rjustZ (pyStr (Val.int n)) rjust := by
    show rjustZ (rjustZ (toString n) rjust) rjust = rjustZ (toString n) rjust
    exact rjustZ_idem _ _
  constructor
  · unfold NICEBIDS.get
    rw [Option.map_some', Option.map_some', hpad]
  · unfold get_derivatives
    rw [Option.map_some', Option.map_some', hpad]

def c4path : String :=
  "r/sub-01/ses-01/eeg/sub-01_ses-01_task-rs_acq-99_eeg.fif"

def c4df : DF :=
  ⟨["participant_id", "ses", "task", "acq", "run"],
   [[("participant_id", Val.str "sub-01"), ("ses", Val.str "01"),
     ("task", Val.str "rs"), ("acq", Val.str "01"), ("run", Val.int 1)]]⟩

/-- C4 counterexample: at construction, the zero-padded STRING form
`"01"` of the integer acquisition `1` falls through both `isinstance`
checks and becomes the match-anything wildcard, so the built subset
pattern accepts an `acq-99` path that the integer form rejects; and
`to_df` compares the unnormalized value, so the integer `1` matches no
row of a string-typed `acq` column while `"01"` does.  Supplying the
integer and its padded string form is therefore NOT equivalent for the
constructor pattern or for `to_df`. -/
theorem c4_counterexample :
    subsetAcq 2 (AcqArg.intVal 1) = ["01"] ∧
    subsetAcq 2 (AcqArg.strVal "01") = [".+"] ∧
    pyReMatch (rawFilePattern "r" ["01"] ["01"] ["rs"]
      (subsetAcq 2 (AcqArg.intVal 1))) c4path = false ∧
    pyReMatch (rawFilePattern "r" ["01"] ["01"] ["rs"]
      (subsetAcq 2 (AcqArg.strVal "01"))) c4path = true ∧
    to_df c4df none none none (some (Val.int 1)) none
      ≠ to_df c4df none none none (some (Val.str "01")) none := by
  refine ⟨rfl, rfl, by rfl, by rfl, ?_⟩
  intro h
  have h2 := congrArg DF.rows h
  have h3 : (to_df c4df none none none (some (Val.int 1)) none).rows = [] := by rfl
  have h4 : (to_df c4df none none none (some (Val.str "01")) none).rows
      = c4df.rows := by rfl
  rw [h3, h4] at h2
  cases h2

/-! ## C7 -/

/-- C7: any path accepted by the subset pattern built with given task
alternatives (all nonempty) is also accepted by the pattern built with
the task filter omitted, i.e. with the `.+` wildcard in the task slot —
omitting `task` never restricts by task. -/
theorem c7_omitted_task_wildcard (root : String)
    (subs sess acqs ts : List String) (hts : ts ≠ [])
    (hne : ∀ t ∈ ts, t ≠ "") (s : String)
    (h : pyReMatch (rawFilePattern root subs sess ts acqs) s = true) :
    pyReMatch (rawFilePattern root subs sess [".+"] acqs) s = true := by
  have htask : ∀ x, (reGroup ts).rmatch x = true →
      (reGroup [".+"]).rmatch x = true := by
    intro x hx
    have hxne := reGroup_rmatch_ne_nil ts hts hne x hx
    show (compileAlt ".+").rmatch x = true
    exact wildcard_rmatch x hxne
  unfold pyReMatch rawFilePattern at h ⊢
  rcases (cat_rmatch_iff _ _ _).mp h with ⟨t, u, htu, h1, h2⟩
  refine (cat_rmatch_iff _ _ _).mpr ⟨t, u, htu, h1, ?_⟩
  unfold subset_regex_pattern at h2 ⊢
  refine catList_mono _ _ ?_ u h2
  exact .cons (fun _ hx => hx) (.cons (fun _ hx => hx) (.cons (fun _ hx => hx)
    (.cons (fun _ hx => hx) (.cons (fun _ hx => hx) (.cons (fun _ hx => hx)
    (.cons (fun _ hx => hx) (.cons (fun _ hx => hx) (.cons (fun _ hx => hx)
    (.cons (fun _ hx => hx) (.cons htask (.cons (fun _ hx => hx)
    (.cons (fun _ hx => hx) (.cons (fun _ hx => hx) (.cons (fun _ hx => hx)
    (.cons (fun _ hx => hx) (.cons (fun _ hx => hx) .nil))))))))))))))))

theorem c7_witness :
    pyReMatch (rawFilePattern "r" ["01"] ["01"] [".+"] ["01"])
      "r/sub-01/ses-01/eeg/sub-01_ses-01_task-rs_acq-01_eeg.fif" = true :=
  c7_omitted_task_wildcard "r" ["01"] ["01"] ["01"] ["rs"]
    (by decide) (by decide) _ (by rfl)

/-! ## C5 -/

/-- Characterization of `query_filter`. -/
theorem query_filter_eq_true_iff (file : BIDSEntry)
    (sub task ext ses acq run sfx deriv : Option String) :
    query_filter file sub task ext ses acq run sfx deriv = true ↔
      ((∀ v ∈ sub, pyIn ("sub-" ++ v) file.path = true) ∧
       (∀ v ∈ task, pyIn ("task-" ++ v) file.path = true) ∧
       (∀ v ∈ ses, pyIn ("ses-" ++ v) file.path = true) ∧
       (∀ v ∈ acq, pyIn ("acq-" ++ v) file.path = true) ∧
       (∀ v ∈ run, pyIn ("run-" ++ v) file.path = true) ∧
       (∀ v ∈ sfx, pyIn ("_" ++ v ++ ".") file.path = true) ∧
       (∀ v ∈ ext, pyEndsWith ("." ++ v) file.path = true) ∧
       file.derivative = deriv) := by
  unfold query_filter
  cases sub <;> cases task <;> cases ses <;> cases acq <;> cases run <;>
    cases sfx <;> cases ext <;>
    simp [List.zip, List.zipWith, beq_iff_eq,
      show ("sub" : String) ++ "-" = "sub-" from rfl,
      show ("task" : String) ++ "-" = "task-" from rfl,
      show ("ses" : String) ++ "-" = "ses-" from rfl,
      show ("acq" : String) ++ "-" = "acq-" from rfl,
      show ("run" : String) ++ "-" = "run-" from rfl,
      and_assoc]

/-- C5: `get` returns exactly the entries of the loaded raw list for
which every supplied field occurs as a `field-value` substring of the
entry's path (with `acq`/`run` zero-padded by `str(x).rjust`), the
supplied suffix occurs as `_suffix.`, the supplied extension is a path
suffix, and the entry's derivative tag is absent; in particular the
result is empty when no loaded entry satisfies all the constraints. -/
theorem c5_get_membership (rjust : Nat) (files : List BIDSEntry)
    (sub task ext ses : Option String) (acq run : Option Val)
    (sfx : Option String) (e : BIDSEntry) :
    e ∈ NICEBIDS.get rjust files sub task ext ses acq run sfx ↔
      (e ∈ files ∧
       (∀ v ∈ sub, pyIn ("sub-" ++ v) e.path = true) ∧
       (∀ v ∈ task, pyIn ("task-" ++ v) e.path = true) ∧
       (∀ v ∈ ses, pyIn ("ses-" ++ v) e.path = true) ∧
       (∀ v ∈ acq, pyIn ("acq-" ++ rjustZ (pyStr v) rjust) e.path = true) ∧
       (∀ v ∈ run, pyIn ("run-" ++ rjustZ (pyStr v) rjust) e.path = true) ∧
       (∀ v ∈ sfx, pyIn ("_" ++ v ++ ".") e.path = true) ∧
       (∀ v ∈ ext, pyEndsWith ("." ++ v) e.path = true) ∧
       e.derivative = none) := by
  unfold NICEBIDS.get
  rw [List.mem_filter, query_filter_eq_true_iff]
  cases acq <;> cases run <;> simp

def c5e : BIDSEntry :=
  ⟨"r/sub-01/ses-01/eeg/sub-01_ses-01_task-rs_acq-01_eeg.fif", none, []⟩

theorem c5_witness :
    c5e ∈ NICEBIDS.get 2 [c5e] (some "01") (some "rs") none none
      (some (Val.int 1)) none none :=
  (c5_get_membership 2 [c5e] (some "01") (some "rs") none none
    (some (Val.int 1)) none none c5e).mpr (by
      refine ⟨List.mem_singleton.mpr rfl, ?_, ?_, ?_, ?_, ?_, ?_, ?_, rfl⟩
      · intro v hv; cases hv; rfl
      · intro v hv; cases hv; rfl
      · intro v hv; cases hv
      · intro v hv; cases hv; rfl
      · intro v hv; cases hv
      · intro v hv; cases hv
      · intro v hv; cases hv)
